import Mathlib

/-!
# Verification of the middleware dispatch engine of `src/lib/middleware.ts`

A shallow embedding of the HTTP-server toolkit: the `Middleware` wrapper
(source lines 5–16), the single-shot `respond` guard built in `listen`
(lines 41–50), the dispatch chain `Server.#run` / `next` (lines 55–73),
the registration surface `on` / `use` (lines 96–131), and the static-file
handler installed by `Server.static` (lines 147–164).

Modelling choices:
* Handlers are cooperative and, per the source's `await`, the chain driver
  waits for each handler before proceeding; we model execution
  synchronously (spec §5: within a request the chain is strictly
  sequential).  A user handler is represented by its observable behaviour:
  a finite list of actions, each either a call of its continuation
  (`next`) or a call of `respond`.
* `URLPattern` pattern testing, `Deno` file reads, `URL(href).pathname`
  and the `CONTENT_TYPES` table (`constants.ts`, not part of the sources
  here) are external collaborators; they enter as function parameters.
* Machine strings handled character-wise (for `split`/`replace`) are
  `List Char`.
* The recursive `next` driver is interpreted by a fuel-indexed structural
  interpreter `step`; `suffixFuel` computes a fuel bound sufficient for
  any run over a given handler list, and the lemmas below establish the
  fuel-independent behaviour.
-/

namespace MwServer

/-- The argument object of the `respond` callback: a response
configuration (`{status}` or `{body, headers:{'content-type'}}`). -/
structure ResponseInit where
  status : Option Nat := none
  body : Option (List Nat) := none
  contentType : Option (List Char) := none
deriving DecidableEq

/-- The mutable per-request event data of `RequestEvent`: target URL,
HTTP method and the resolved-route field the wrappers assign. -/
structure Event where
  href : String
  method : String
  route : String
deriving DecidableEq

/-- One observable action of a user handler body: invoke the continuation
(`next()`) or invoke `respond(r)`. -/
inductive Act where
  | callNext : Act
  | respond : ResponseInit → Act
deriving DecidableEq

/-- A guarded handler as stored in the middleware/listener lists: the
`(method, route)` pair closed over by `Middleware(method, route, handler)`
together with the inner handler, given by an identifier `hid` (for the
execution log) and its behaviour `acts`. -/
structure GH where
  method : String
  route : String
  hid : Nat
  acts : List Act
deriving DecidableEq

/-- A default guarded handler (used only as the `getLastD` fallback). -/
def dGH : GH := ⟨"", "", 0, []⟩

/-- The per-request interpreter state: the event, the once-only response
guard `responded` with the list `sent` of actually transmitted responses,
the `used` set of consumed chain positions, plus two observation logs:
`log` records inner-handler invocations, `tested` records wrapper tests
(both in execution order, by `hid`). -/
structure St where
  ev : Event
  responded : Bool
  sent : List ResponseInit
  used : Finset ℤ
  log : List Nat
  tested : List Nat
deriving DecidableEq

/-- Source lines 44–49: the response callback handed to `#run` by
`listen`.  `if (responded) return null; respondWith(response);
responded = true;` — first call transmits, later calls are dropped. -/
def doRespond (r : ResponseInit) (st : St) : St :=
  if st.responded then st
  else { st with sent := st.sent ++ [r], responded := true }

/-- The call shapes of the dispatch driver (source lines 60–72):
* `nextC i` — evaluate `next(i)` and invoke the closure it returns;
* `body i` — the body of the non-noop closure returned by `next(i)`;
* `invoke j` — the awaited call `handlers[j](httpRequest, next(j))`;
* `mid gh cr j` — the `Middleware` wrapper of `gh` running, where `cr`
  records whether the continuation `next(j)` it received was created as
  the real closure (`true`) or the `() => undefined` noop (`false`);
* `acts l cr j` — the inner handler's remaining behaviour `l` running at
  chain position `j` with continuation status `cr`. -/
inductive Call where
  | nextC : ℤ → Call
  | body : ℤ → Call
  | invoke : ℤ → Call
  | mid : GH → Bool → ℤ → Call
  | acts : List Act → Bool → ℤ → Call

/-- The dispatch interpreter.  `step hs pt f c st` executes the call `c`
of the driver built over handler list `hs` and pattern collaborator `pt`
(`pt pattern href` is `new URLPattern({pathname: pattern}).test(href)`),
with fuel `f` bounding call depth.  The `Bool` component is the wrapper's
matched/unmatched return value (discarded by the driver, lines 12–14).

* `nextC i` (line 61): `if (used.has(index) || !handlers[index + 1])
  return () => undefined` — otherwise run the closure body.
* `body i` (lines 63–69): `if (!used.has(index)) await
  handlers[index + 1](httpRequest, next(index + 1)); used.add(index);
  next(index + 1)()`.
* `invoke j`: fetch `handlers[j]` and run the wrapper, recording whether
  the continuation `next(j)` passed to it was created real, i.e.
  `¬(used.has(j) ∨ no handler at j + 1)` at creation time (line 61).
  The closure body itself re-checks only `used` (line 64), so the
  handler-existence part of the guard is state-independent.
* `mid gh cr j` (lines 6–15): `event.route = route`; test pattern and
  method; if both pass run the handler and return `true`, else return
  `false`.
* `acts` : the inner handler's behaviour; `callNext` runs `body j` when
  the received continuation is the real closure. -/
def step (hs : List GH) (pt : String → String → Bool) :
    Nat → Call → St → St × Bool
  | 0, _, st => (st, false)
  | f + 1, Call.nextC i, st =>
      if i ∈ st.used ∨ (hs.length : ℤ) ≤ i + 1 then (st, false)
      else step hs pt f (Call.body i) st
  | f + 1, Call.body i, st =>
      let st1 := if i ∈ st.used then st else (step hs pt f (Call.invoke (i + 1)) st).1
      let st2 := { st1 with used := insert i st1.used }
      step hs pt f (Call.nextC (i + 1)) st2
  | f + 1, Call.invoke j, st =>
      match hs[j.toNat]? with
      | none => (st, false)
      | some gh =>
          step hs pt f
            (Call.mid gh (decide (j ∉ st.used ∧ j + 1 < (hs.length : ℤ))) j) st
  | f + 1, Call.mid gh cr j, st =>
      let ev1 := { st.ev with route := gh.route }
      if pt gh.route ev1.href && (gh.method == ev1.method || gh.method == "ANY") then
        ((step hs pt f (Call.acts gh.acts cr j)
            { st with ev := ev1, log := st.log ++ [gh.hid],
                      tested := st.tested ++ [gh.hid] }).1, true)
      else ({ st with ev := ev1, tested := st.tested ++ [gh.hid] }, false)
  | f + 1, Call.acts l cr j, st =>
      match l with
      | [] => (st, true)
      | Act.respond r :: rest => step hs pt f (Call.acts rest cr j) (doRespond r st)
      | Act.callNext :: rest =>
          step hs pt f (Call.acts rest cr j)
            (if cr then (step hs pt f (Call.body j) st).1 else st)

/-- A fuel amount sufficient to run any chain over the given handler
list to completion (proved via the characterisation lemmas below). -/
def suffixFuel : List GH → Nat
  | [] => 8
  | gh :: rest => gh.acts.length + 8 + suffixFuel rest

/-- Evaluate `next(i)` and invoke the returned closure, with adequate
fuel.  The start of the chain (line 72) is `callCont … (-1)`. -/
def callCont (hs : List GH) (pt : String → String → Bool) (i : ℤ) (st : St) : St :=
  (step hs pt (suffixFuel hs + 1) (Call.nextC i) st).1

/-- The initial interpreter state for a fresh request: `responded` is
`false`, nothing sent, `used` empty (line 58), empty logs. -/
def initSt (ev : Event) : St := ⟨ev, false, [], ∅, [], []⟩

/-- Source lines 55–73 (`Server.#run`) for a fixed request: run the chain
`next()()` over the handler list from the fresh state. -/
def runChain (hs : List GH) (pt : String → String → Bool) (ev : Event) : St :=
  callCont hs pt (-1) (initSt ev)

/-- The wrapper guard of lines 9–12, as a Boolean on the fixed request
data: pattern test on the event's href, and method equality or `"ANY"`. -/
def matchesB (pt : String → String → Bool) (href method : String) (gh : GH) : Bool :=
  pt gh.route href && (gh.method == method || gh.method == "ANY")

/-- The hids of all handlers of a list, in order (each one wrapper test). -/
def testedIds (l : List GH) : List Nat := l.map GH.hid

/-- The hids of the matching subsequence of a list, in order. -/
def invokedIds (pt : String → String → Bool) (href method : String)
    (l : List GH) : List Nat :=
  (l.filter (matchesB pt href method)).map GH.hid

end MwServer

namespace MwServer

/-! ## Unfolding lemmas for the interpreter -/

section Unfold

variable (hs : List GH) (pt : String → String → Bool)

theorem step_nextC_stop (f : Nat) (i : ℤ) (st : St)
    (h : i ∈ st.used ∨ (hs.length : ℤ) ≤ i + 1) :
    step hs pt (f + 1) (Call.nextC i) st = (st, false) := by
  simp [step, h]

theorem step_nextC_go (f : Nat) (i : ℤ) (st : St)
    (h : ¬(i ∈ st.used ∨ (hs.length : ℤ) ≤ i + 1)) :
    step hs pt (f + 1) (Call.nextC i) st = step hs pt f (Call.body i) st := by
  simp [step, h]

theorem step_body_used (f : Nat) (i : ℤ) (st : St) (h : i ∈ st.used) :
    step hs pt (f + 1) (Call.body i) st =
      step hs pt f (Call.nextC (i + 1)) { st with used := insert i st.used } := by
  simp [step, h]

theorem step_body_new (f : Nat) (i : ℤ) (st : St) (h : i ∉ st.used) :
    step hs pt (f + 1) (Call.body i) st =
      step hs pt f (Call.nextC (i + 1))
        { (step hs pt f (Call.invoke (i + 1)) st).1 with
          used := insert i (step hs pt f (Call.invoke (i + 1)) st).1.used } := by
  simp [step, h]

theorem step_invoke_none (f : Nat) (j : ℤ) (st : St) (h : hs[j.toNat]? = none) :
    step hs pt (f + 1) (Call.invoke j) st = (st, false) := by
  simp [step, h]

theorem step_invoke_some (f : Nat) (j : ℤ) (st : St) (gh : GH)
    (h : hs[j.toNat]? = some gh) :
    step hs pt (f + 1) (Call.invoke j) st =
      step hs pt f
        (Call.mid gh (decide (j ∉ st.used ∧ j + 1 < (hs.length : ℤ))) j) st := by
  simp [step, h]

theorem step_mid_match (f : Nat) (gh : GH) (cr : Bool) (j : ℤ) (st : St)
    (h : (pt gh.route st.ev.href && (gh.method == st.ev.method || gh.method == "ANY")) = true) :
    step hs pt (f + 1) (Call.mid gh cr j) st =
      ((step hs pt f (Call.acts gh.acts cr j)
          { st with ev := { st.ev with route := gh.route },
                    log := st.log ++ [gh.hid],
                    tested := st.tested ++ [gh.hid] }).1, true) := by
  simp [step, h]

theorem step_mid_nonmatch (f : Nat) (gh : GH) (cr : Bool) (j : ℤ) (st : St)
    (h : (pt gh.route st.ev.href && (gh.method == st.ev.method || gh.method == "ANY")) = false) :
    step hs pt (f + 1) (Call.mid gh cr j) st =
      ({ st with ev := { st.ev with route := gh.route },
                 tested := st.tested ++ [gh.hid] }, false) := by
  simp [step, h]

theorem step_acts_nil (f : Nat) (cr : Bool) (j : ℤ) (st : St) :
    step hs pt (f + 1) (Call.acts [] cr j) st = (st, true) := by
  simp [step]

theorem step_acts_respond (f : Nat) (r : ResponseInit) (rest : List Act)
    (cr : Bool) (j : ℤ) (st : St) :
    step hs pt (f + 1) (Call.acts (Act.respond r :: rest) cr j) st =
      step hs pt f (Call.acts rest cr j) (doRespond r st) := by
  simp [step]

theorem step_acts_next (f : Nat) (rest : List Act) (cr : Bool) (j : ℤ) (st : St) :
    step hs pt (f + 1) (Call.acts (Act.callNext :: rest) cr j) st =
      step hs pt f (Call.acts rest cr j)
        (if cr then (step hs pt f (Call.body j) st).1 else st) := by
  simp [step]

end Unfold

end MwServer

namespace MwServer

/-! ## Invariants of the interpreter -/

/-- No chain position at or beyond `i` has been consumed yet. -/
def freshFrom (i : ℤ) (st : St) : Prop := ∀ x : ℤ, i ≤ x → x ∉ st.used

/-- The request's target and method are never mutated by the chain. -/
theorem step_ev_fix (hs : List GH) (pt : String → String → Bool) :
    ∀ (f : Nat) (c : Call) (st : St),
      (step hs pt f c st).1.ev.href = st.ev.href ∧
      (step hs pt f c st).1.ev.method = st.ev.method := by
  intro f
  induction f with
  | zero => intro c st; exact ⟨rfl, rfl⟩
  | succ f IH =>
    intro c st
    cases c with
    | nextC i =>
      by_cases h : i ∈ st.used ∨ (hs.length : ℤ) ≤ i + 1
      · rw [step_nextC_stop hs pt f i st h]; exact ⟨rfl, rfl⟩
      · rw [step_nextC_go hs pt f i st h]; exact IH _ _
    | body i =>
      by_cases h : i ∈ st.used
      · rw [step_body_used hs pt f i st h]
        exact IH _ _
      · rw [step_body_new hs pt f i st h]
        refine ⟨?_, ?_⟩ <;>
          simp only [(IH (Call.nextC (i + 1)) _).1, (IH (Call.nextC (i + 1)) _).2] <;>
          simp [(IH (Call.invoke (i + 1)) st).1, (IH (Call.invoke (i + 1)) st).2]
    | invoke j =>
      cases h : hs[j.toNat]? with
      | none => rw [step_invoke_none hs pt f j st h]; exact ⟨rfl, rfl⟩
      | some gh => rw [step_invoke_some hs pt f j st gh h]; exact IH _ _
    | mid gh cr j =>
      by_cases h : (pt gh.route st.ev.href && (gh.method == st.ev.method || gh.method == "ANY")) = true
      · rw [step_mid_match hs pt f gh cr j st h]
        refine ⟨?_, ?_⟩ <;> simp [(IH (Call.acts gh.acts cr j) _).1, (IH (Call.acts gh.acts cr j) _).2]
      · rw [step_mid_nonmatch hs pt f gh cr j st (by simpa using h)]; exact ⟨rfl, rfl⟩
    | acts l cr j =>
      match l with
      | [] => rw [step_acts_nil]; exact ⟨rfl, rfl⟩
      | Act.respond r :: rest =>
        rw [step_acts_respond]
        have := IH (Call.acts rest cr j) (doRespond r st)
        constructor
        · rw [this.1]; unfold doRespond; split <;> rfl
        · rw [this.2]; unfold doRespond; split <;> rfl
      | Act.callNext :: rest =>
        rw [step_acts_next]
        cases cr with
        | true =>
          simp only [if_true]
          have h1 := IH (Call.acts rest true j) ((step hs pt f (Call.body j) st).1)
          have h2 := IH (Call.body j) st
          exact ⟨h1.1.trans h2.1, h1.2.trans h2.2⟩
        | false => simp only [Bool.false_eq_true, if_false]; exact IH _ _

/-- The invocation log only ever grows (by appending at the end). -/
theorem step_log_mono (hs : List GH) (pt : String → String → Bool) :
    ∀ (f : Nat) (c : Call) (st : St), ∃ t, (step hs pt f c st).1.log = st.log ++ t := by
  intro f
  induction f with
  | zero => intro c st; exact ⟨[], by simp [step]⟩
  | succ f IH =>
    intro c st
    cases c with
    | nextC i =>
      by_cases h : i ∈ st.used ∨ (hs.length : ℤ) ≤ i + 1
      · rw [step_nextC_stop hs pt f i st h]; exact ⟨[], by simp⟩
      · rw [step_nextC_go hs pt f i st h]; exact IH _ _
    | body i =>
      by_cases h : i ∈ st.used
      · rw [step_body_used hs pt f i st h]; exact IH _ _
      · rw [step_body_new hs pt f i st h]
        obtain ⟨t1, ht1⟩ := IH (Call.invoke (i + 1)) st
        obtain ⟨t2, ht2⟩ := IH (Call.nextC (i + 1))
          { (step hs pt f (Call.invoke (i + 1)) st).1 with
            used := insert i (step hs pt f (Call.invoke (i + 1)) st).1.used }
        exact ⟨t1 ++ t2, by rw [ht2]; simp [ht1]⟩
    | invoke j =>
      cases h : hs[j.toNat]? with
      | none => rw [step_invoke_none hs pt f j st h]; exact ⟨[], by simp⟩
      | some gh => rw [step_invoke_some hs pt f j st gh h]; exact IH _ _
    | mid gh cr j =>
      by_cases h : (pt gh.route st.ev.href && (gh.method == st.ev.method || gh.method == "ANY")) = true
      · rw [step_mid_match hs pt f gh cr j st h]
        obtain ⟨t, ht⟩ := IH (Call.acts gh.acts cr j)
          { st with ev := { st.ev with route := gh.route },
                    log := st.log ++ [gh.hid], tested := st.tested ++ [gh.hid] }
        exact ⟨gh.hid :: t, by rw [ht]; simp⟩
      · rw [step_mid_nonmatch hs pt f gh cr j st (by simpa using h)]; exact ⟨[], by simp⟩
    | acts l cr j =>
      match l with
      | [] => rw [step_acts_nil]; exact ⟨[], by simp⟩
      | Act.respond r :: rest =>
        rw [step_acts_respond]
        obtain ⟨t, ht⟩ := IH (Call.acts rest cr j) (doRespond r st)
        refine ⟨t, by rw [ht]; unfold doRespond; split <;> rfl⟩
      | Act.callNext :: rest =>
        rw [step_acts_next]
        cases cr with
        | true =>
          simp only [if_true]
          obtain ⟨t1, ht1⟩ := IH (Call.body j) st
          obtain ⟨t2, ht2⟩ := IH (Call.acts rest true j) ((step hs pt f (Call.body j) st).1)
          exact ⟨t1 ++ t2, by rw [ht2, ht1, List.append_assoc]⟩
        | false => simp only [Bool.false_eq_true, if_false]; exact IH _ _

end MwServer

namespace MwServer

/-! ## Small helpers -/

/-- Last element of a list with a default (used for the chain's final
resolved route). -/
def lastD {α : Type} (d : α) : List α → α
  | [] => d
  | [a] => a
  | _ :: b :: r => lastD d (b :: r)

theorem lastD_cons_cons {α : Type} (d a b : α) (r : List α) :
    lastD d (a :: b :: r) = lastD d (b :: r) := rfl

theorem getElem?_eq_lastD {α : Type} (d : α) :
    ∀ (l : List α) (k : Nat), k + 1 = l.length → l[k]? = some (lastD d l) := by
  intro l
  induction l with
  | nil => intro k hk; simp at hk
  | cons a t IH =>
    intro k hk
    cases t with
    | nil =>
      have : k = 0 := by simpa using hk
      subst this; rfl
    | cons b r =>
      cases k with
      | zero => simp at hk
      | succ k =>
        rw [lastD_cons_cons]
        have := IH k (by simpa using hk)
        simpa using this

theorem doRespond_used (r : ResponseInit) (st : St) :
    (doRespond r st).used = st.used := by unfold doRespond; split <;> rfl

theorem doRespond_log (r : ResponseInit) (st : St) :
    (doRespond r st).log = st.log := by unfold doRespond; split <;> rfl

theorem doRespond_tested (r : ResponseInit) (st : St) :
    (doRespond r st).tested = st.tested := by unfold doRespond; split <;> rfl

theorem doRespond_ev (r : ResponseInit) (st : St) :
    (doRespond r st).ev = st.ev := by unfold doRespond; split <;> rfl

theorem insert_union_Icc (i m : ℤ) (s : Finset ℤ) (h : i ≤ m) :
    insert i (s ∪ Finset.Icc (i + 1) m) = s ∪ Finset.Icc i m := by
  ext x
  simp only [Finset.mem_insert, Finset.mem_union, Finset.mem_Icc]
  by_cases hx : x ∈ s
  · simp [hx]
  · simp only [hx, false_or]; omega

theorem insert_eq_union_Icc (i m : ℤ) (s : Finset ℤ) (h : i = m) :
    insert i s = s ∪ Finset.Icc i m := by
  subst h
  ext x
  simp only [Finset.mem_insert, Finset.mem_union, Finset.mem_Icc]
  by_cases hx : x ∈ s
  · simp [hx]
  · simp only [hx, false_or, or_false]; omega

/-! ## The consumed (no-op) regime

Once every position from `i` up to the end of the chain is in `used`, the
continuation for `i` does nothing: the closure body skips the handler
call (line 64 re-check), re-adds `i`, and the final `next(i + 1)()`
returns the noop closure (line 61 guard). -/

theorem body_spent (hs : List GH) (pt : String → String → Bool)
    (f : Nat) (i : ℤ) (st : St)
    (hsub : Finset.Icc i ((hs.length : ℤ) - 2) ⊆ st.used)
    (hlt : i + 1 < (hs.length : ℤ)) (hf : 3 ≤ f) :
    step hs pt f (Call.body i) st = (st, false) := by
  obtain ⟨f, rfl⟩ : ∃ f', f = f' + 2 := ⟨f - 2, by omega⟩
  have hi : i ∈ st.used := hsub (by simp only [Finset.mem_Icc]; omega)
  rw [step_body_used hs pt (f + 1) i st hi]
  have hins : insert i st.used = st.used := Finset.insert_eq_self.mpr hi
  have hst : { st with used := insert i st.used } = st := by rw [hins]
  rw [hst]
  apply step_nextC_stop
  by_cases hc : i + 1 ≤ (hs.length : ℤ) - 2
  · exact Or.inl (hsub (by simp only [Finset.mem_Icc]; omega))
  · exact Or.inr (by omega)

theorem acts_spent (hs : List GH) (pt : String → String → Bool) :
    ∀ (l : List Act) (f : Nat) (cr : Bool) (j : ℤ) (st : St),
      (cr = true → Finset.Icc j ((hs.length : ℤ) - 2) ⊆ st.used ∧
        j + 1 < (hs.length : ℤ)) →
      l.length + 4 ≤ f →
      (step hs pt f (Call.acts l cr j) st).1.used = st.used ∧
      (step hs pt f (Call.acts l cr j) st).1.log = st.log ∧
      (step hs pt f (Call.acts l cr j) st).1.tested = st.tested ∧
      (step hs pt f (Call.acts l cr j) st).1.ev.route = st.ev.route := by
  intro l
  induction l with
  | nil =>
    intro f cr j st _ hf
    obtain ⟨f, rfl⟩ : ∃ f', f = f' + 1 := ⟨f - 1, by omega⟩
    rw [step_acts_nil]
    exact ⟨rfl, rfl, rfl, rfl⟩
  | cons a rest IH =>
    intro f cr j st hcr hf
    obtain ⟨f, rfl⟩ : ∃ f', f = f' + 1 := ⟨f - 1, by omega⟩
    cases a with
    | respond r =>
      rw [step_acts_respond]
      have hcr' : cr = true → Finset.Icc j ((hs.length : ℤ) - 2) ⊆ (doRespond r st).used ∧
          j + 1 < (hs.length : ℤ) := by
        intro h; rw [doRespond_used]; exact hcr h
      have := IH f cr j (doRespond r st) hcr' (by simp at hf ⊢; omega)
      rw [this.1, this.2.1, this.2.2.1, this.2.2.2,
        doRespond_used, doRespond_log, doRespond_tested, doRespond_ev]
      exact ⟨rfl, rfl, rfl, rfl⟩
    | callNext =>
      rw [step_acts_next]
      cases cr with
      | false =>
        simp only [Bool.false_eq_true, if_false]
        exact IH f false j st (by simp) (by simp at hf ⊢; omega)
      | true =>
        simp only [if_true]
        obtain ⟨hsub, hlt⟩ := hcr rfl
        rw [body_spent hs pt f j st hsub hlt (by simp at hf ⊢; omega)]
        exact IH f true j st (fun _ => ⟨hsub, hlt⟩) (by simp at hf ⊢; omega)

end MwServer

namespace MwServer

/-! ## Fresh-state facts and fuel arithmetic -/

theorem freshFrom_mono {i j : ℤ} {st : St} (h : freshFrom i st) (hij : i ≤ j) :
    freshFrom j st := fun x hx => h x (le_trans hij hx)

theorem suffixFuel_ge (l : List GH) : 8 ≤ suffixFuel l := by
  cases l with
  | nil => simp [suffixFuel]
  | cons gh rest => simp [suffixFuel]; omega

theorem suffixFuel_drop_le (l : List GH) : ∀ k : Nat, suffixFuel (l.drop k) ≤ suffixFuel l := by
  induction l with
  | nil => intro k; simp
  | cons gh rest IH =>
    intro k
    cases k with
    | zero => simp
    | succ k =>
      calc suffixFuel ((gh :: rest).drop (k + 1)) = suffixFuel (rest.drop k) := rfl
        _ ≤ suffixFuel rest := IH k
        _ ≤ suffixFuel (gh :: rest) := by simp [suffixFuel]

theorem drop_toNat_cons (hs : List GH) (i : ℤ) (h1 : -1 ≤ i) (h2 : i + 1 < (hs.length : ℤ)) :
    hs.drop (i + 1).toNat = hs[(i + 1).toNat] :: hs.drop (i + 2).toNat := by
  have hlt : (i + 1).toNat < hs.length := by omega
  have harg : (i + 1).toNat + 1 = (i + 2).toNat := by omega
  rw [List.drop_eq_getElem_cons hlt, harg]

theorem drop_toNat_last (hs : List GH) (i : ℤ) (h1 : -1 ≤ i)
    (h2 : i + 1 < (hs.length : ℤ)) (h3 : ¬ i + 2 < (hs.length : ℤ)) :
    hs.drop (i + 1).toNat = [hs[(i + 1).toNat]] := by
  rw [drop_toNat_cons hs i h1 h2]
  have : (i + 2).toNat = hs.length := by omega
  rw [this, List.drop_length]

theorem testedIds_cons (gh : GH) (l : List GH) :
    testedIds (gh :: l) = gh.hid :: testedIds l := rfl

theorem invokedIds_cons (pt : String → String → Bool) (href method : String)
    (gh : GH) (l : List GH) :
    invokedIds pt href method (gh :: l) =
      if matchesB pt href method gh = true then gh.hid :: invokedIds pt href method l
      else invokedIds pt href method l := by
  by_cases h : matchesB pt href method gh = true <;>
    simp [invokedIds, List.filter_cons, h]

theorem insert_left_union_Icc (i m : ℤ) (s : Finset ℤ) (h : i ≤ m) :
    (insert i s) ∪ Finset.Icc (i + 1) m = s ∪ Finset.Icc i m := by
  ext x
  simp only [Finset.mem_insert, Finset.mem_union, Finset.mem_Icc]
  by_cases hx : x ∈ s
  · simp [hx]
  · simp only [hx, false_or, or_false]; omega

/-- The combined outcome of running the chain from position `i` on a state
with no position `≥ i` consumed: positions `i … n-2` become consumed, all
handlers from slot `i+1` on are tested once in order, exactly the
matching ones among them are invoked in order, and the event's route ends
at the last handler's pattern. -/
def ChainOut (hs : List GH) (pt : String → String → Bool) (i : ℤ)
    (st out : St) : Prop :=
  out.used = st.used ∪ Finset.Icc i ((hs.length : ℤ) - 2) ∧
  out.tested = st.tested ++ testedIds (hs.drop (i + 1).toNat) ∧
  out.log = st.log ++ invokedIds pt st.ev.href st.ev.method (hs.drop (i + 1).toNat) ∧
  out.ev.route = (lastD dGH hs).route

end MwServer

namespace MwServer

/-- Finishing a `body i` run when the handler at slot `i+1` did not
effectively delegate: the state `st1` left by the wrapper differs from
`st` only by the test/invocation records and the route, and the driver's
unconditional `used.add(index); next(index + 1)()` tail (lines 67–68)
then walks the rest of the chain on its own. -/
theorem body_finish (hs : List GH) (pt : String → String → Bool)
    (g : Nat) (i : ℤ) (st st1 : St) (gh : GH)
    (hNextC : ∀ (k : ℤ) (s : St), -1 ≤ k → freshFrom k s →
      suffixFuel (hs.drop (k + 1).toNat) + 1 ≤ g + 2 →
      if k + 1 < (hs.length : ℤ)
      then ChainOut hs pt k s (step hs pt (g + 2) (Call.nextC k) s).1
      else step hs pt (g + 2) (Call.nextC k) s = (s, false))
    (hi : -1 ≤ i) (hn : i + 1 < (hs.length : ℤ))
    (hfresh : freshFrom i st)
    (hsome : hs[(i + 1).toNat]? = some gh)
    (hused : st1.used = st.used)
    (htested : st1.tested = st.tested ++ [gh.hid])
    (hlog : st1.log = st.log ++
      (if matchesB pt st.ev.href st.ev.method gh = true then [gh.hid] else []))
    (hhref : st1.ev.href = st.ev.href) (hmeth : st1.ev.method = st.ev.method)
    (hroute : st1.ev.route = gh.route)
    (hfB : suffixFuel (hs.drop (i + 2).toNat) + 1 ≤ g + 2) :
    ChainOut hs pt i st
      (step hs pt (g + 2) (Call.nextC (i + 1)) { st1 with used := insert i st1.used }).1 := by
  have hgood : (i + 1).toNat < hs.length := by omega
  have hgh : hs[(i + 1).toNat] = gh := by
    have h := List.getElem?_eq_getElem hgood
    rw [hsome] at h
    exact (Option.some.inj h).symm
  have hdropc : hs.drop (i + 1).toNat = gh :: hs.drop (i + 2).toNat := by
    rw [drop_toNat_cons hs i hi hn, hgh]
  have hfresh2 : freshFrom (i + 1) { st1 with used := insert i st1.used } := by
    intro x hx
    simp only [Finset.mem_insert, hused]
    push_neg
    exact ⟨by omega, hfresh x (by omega)⟩
  have hi2 : ((i + 1) + 1 : ℤ) = i + 2 := by ring
  have hNC := hNextC (i + 1) { st1 with used := insert i st1.used } (by omega) hfresh2
    (by rw [hi2]; exact hfB)
  simp only [ChainOut] at hNC ⊢
  by_cases hlast : i + 2 < (hs.length : ℤ)
  · rw [if_pos (show (i + 1) + 1 < (hs.length : ℤ) by omega)] at hNC
    obtain ⟨h1, h2, h3, h4⟩ := hNC
    refine ⟨?_, ?_, ?_, h4⟩
    · rw [h1]
      show insert i st1.used ∪ _ = _
      rw [hused, insert_left_union_Icc i ((hs.length : ℤ) - 2) st.used (by omega)]
    · rw [h2]
      show st1.tested ++ testedIds (hs.drop ((i + 1) + 1).toNat) = _
      rw [htested, hi2, hdropc, testedIds_cons]
      simp
    · rw [h3]
      show st1.log ++
          invokedIds pt st1.ev.href st1.ev.method (hs.drop ((i + 1) + 1).toNat) = _
      rw [hhref, hmeth, hlog, hi2, hdropc, invokedIds_cons]
      by_cases hm : matchesB pt st.ev.href st.ev.method gh = true
      · simp [hm]
      · simp [hm]
  · rw [if_neg (show ¬((i + 1) + 1 < (hs.length : ℤ)) by omega)] at hNC
    rw [hNC]
    have hlastd : hs[(i + 1).toNat]? = some (lastD dGH hs) :=
      getElem?_eq_lastD dGH hs (i + 1).toNat (by omega)
    have hghlast : gh = lastD dGH hs := by
      rw [hsome] at hlastd
      exact Option.some.inj hlastd
    have hdropl : hs.drop (i + 1).toNat = [gh] := by
      rw [drop_toNat_last hs i hi hn hlast, hgh]
    refine ⟨?_, ?_, ?_, ?_⟩
    · show insert i st1.used = _
      rw [hused, insert_eq_union_Icc i ((hs.length : ℤ) - 2) st.used (by omega)]
    · show st1.tested = _
      rw [htested, hdropl]
      simp [testedIds]
    · show st1.log = _
      rw [hlog, hdropl, invokedIds_cons]
      by_cases hm : matchesB pt st.ev.href st.ev.method gh = true
      · simp [hm, invokedIds]
      · simp [hm, invokedIds]
    · show st1.ev.route = _
      rw [hroute, hghlast]

end MwServer

namespace MwServer

/-- The dispatch-chain characterisation, proved by strong induction on
fuel.  Three simultaneous statements, one per driver call shape:
invoking `next(i)` from a state with no position `≥ i` consumed
(`nextC`), running the closure body from such a state (`body`), and
running a handler's behaviour list at slot `j` from such a state
(`acts`).  In each case, every wrapper after the current position is
tested exactly once in list order, exactly the matching ones run, the
positions up to `n - 2` become consumed, and the route ends at the last
wrapper's pattern. -/
theorem chain_main (hs : List GH) (pt : String → String → Bool) :
    ∀ f : Nat,
      (∀ (i : ℤ) (st : St), -1 ≤ i → freshFrom i st →
        suffixFuel (hs.drop (i + 1).toNat) + 1 ≤ f →
        if i + 1 < (hs.length : ℤ)
        then ChainOut hs pt i st (step hs pt f (Call.nextC i) st).1
        else step hs pt f (Call.nextC i) st = (st, false)) ∧
      (∀ (i : ℤ) (st : St), -1 ≤ i → i + 1 < (hs.length : ℤ) → freshFrom i st →
        suffixFuel (hs.drop (i + 1).toNat) ≤ f →
        ChainOut hs pt i st (step hs pt f (Call.body i) st).1) ∧
      (∀ (l : List Act) (cr : Bool) (j : ℤ) (st : St), -1 ≤ j → freshFrom j st →
        (cr = true → j + 1 < (hs.length : ℤ)) →
        l.length + 4 + suffixFuel (hs.drop (j + 1).toNat) ≤ f →
        if cr = true ∧ Act.callNext ∈ l
        then ChainOut hs pt j st (step hs pt f (Call.acts l cr j) st).1
        else ((step hs pt f (Call.acts l cr j) st).1.used = st.used ∧
              (step hs pt f (Call.acts l cr j) st).1.log = st.log ∧
              (step hs pt f (Call.acts l cr j) st).1.tested = st.tested ∧
              (step hs pt f (Call.acts l cr j) st).1.ev.route = st.ev.route)) := by
  intro f
  induction f using Nat.strong_induction_on with
  | _ f IH =>
  refine ⟨?_, ?_, ?_⟩
  · -- nextC: the guard of line 61 evaluated at call time, then the body
    intro i st hi hfresh hf
    have hge := suffixFuel_ge (hs.drop (i + 1).toNat)
    obtain ⟨g, rfl⟩ : ∃ g, f = g + 1 := ⟨f - 1, by omega⟩
    by_cases hn : i + 1 < (hs.length : ℤ)
    · rw [if_pos hn,
        step_nextC_go hs pt g i st (by push_neg; exact ⟨hfresh i le_rfl, by omega⟩)]
      exact (IH g (by omega)).2.1 i st hi hn hfresh (by omega)
    · rw [if_neg hn]
      exact step_nextC_stop hs pt g i st (Or.inr (by omega))
  · -- body: invoke the wrapper at slot i+1, then the unconditional tail
    intro i st hi hn hfresh hf
    have hgood : (i + 1).toNat < hs.length := by omega
    have hge2 := suffixFuel_ge (hs.drop (i + 2).toNat)
    have hgh0 : hs[(i + 1).toNat]? = some hs[(i + 1).toNat] :=
      List.getElem?_eq_getElem hgood
    obtain ⟨gh, hgh0⟩ : ∃ gh, hs[(i + 1).toNat]? = some gh := ⟨_, hgh0⟩
    have hghe : hs[(i + 1).toNat] = gh := by
      have h2 := List.getElem?_eq_getElem hgood
      rw [hgh0] at h2
      exact (Option.some.inj h2).symm
    have hdropc : hs.drop (i + 1).toNat = gh :: hs.drop (i + 2).toNat := by
      rw [drop_toNat_cons hs i hi hn, hghe]
    have hsf : suffixFuel (hs.drop (i + 1).toNat) =
        gh.acts.length + 8 + suffixFuel (hs.drop (i + 2).toNat) := by
      rw [hdropc, suffixFuel]
    have h12 : ((i + 1) + 1 : ℤ).toNat = (i + 2 : ℤ).toNat := by omega
    obtain ⟨g, rfl⟩ : ∃ g, f = g + 1 + 1 + 1 := ⟨f - 3, by omega⟩
    have hienot : i ∉ st.used := hfresh i le_rfl
    have hfresh1 : (i + 1) ∉ st.used := hfresh (i + 1) (by omega)
    rw [step_body_new hs pt (g + 1 + 1) i st hienot]
    have hinv : step hs pt (g + 1 + 1) (Call.invoke (i + 1)) st =
        step hs pt (g + 1)
          (Call.mid gh (decide ((i + 1) ∉ st.used ∧ (i + 1) + 1 < (hs.length : ℤ)))
            (i + 1)) st :=
      step_invoke_some hs pt (g + 1) (i + 1) st gh hgh0
    by_cases hm :
        (pt gh.route st.ev.href && (gh.method == st.ev.method || gh.method == "ANY")) = true
    · -- the wrapper matches: its inner handler runs
      have hmB : matchesB pt st.ev.href st.ev.method gh = true := hm
      by_cases hlast : i + 2 < (hs.length : ℤ)
      · -- a later slot exists, so the continuation was created real
        have hcrt : decide ((i + 1) ∉ st.used ∧ (i + 1) + 1 < (hs.length : ℤ)) = true := by
          rw [decide_eq_true_eq]; exact ⟨hfresh1, by omega⟩
        have hA : (step hs pt (g + 1 + 1) (Call.invoke (i + 1)) st).1 =
            (step hs pt g (Call.acts gh.acts true (i + 1))
              { st with ev := { st.ev with route := gh.route },
                        log := st.log ++ [gh.hid],
                        tested := st.tested ++ [gh.hid] }).1 := by
          rw [hinv, hcrt, step_mid_match hs pt g gh true (i + 1) st hm]
        rw [hA]
        have hActs := (IH g (by omega)).2.2 gh.acts true (i + 1)
          { st with ev := { st.ev with route := gh.route },
                    log := st.log ++ [gh.hid], tested := st.tested ++ [gh.hid] }
          (by omega) (fun x hx => hfresh x (by omega)) (fun _ => by omega)
          (by rw [h12]; omega)
        by_cases hmem : Act.callNext ∈ gh.acts
        · -- the handler delegated: everything after already ran; the tail
          -- next(i+1)() is a noop by the line-61 guard
          rw [if_pos ⟨rfl, hmem⟩] at hActs
          simp only [ChainOut] at hActs ⊢
          obtain ⟨ha1, ha2, ha3, ha4⟩ := hActs
          have hmem1 : (i + 1) ∈ insert i
              (step hs pt g (Call.acts gh.acts true (i + 1))
                { st with ev := { st.ev with route := gh.route },
                          log := st.log ++ [gh.hid],
                          tested := st.tested ++ [gh.hid] }).1.used := by
            apply Finset.mem_insert_of_mem
            rw [ha1]
            apply Finset.mem_union_right
            rw [Finset.mem_Icc]
            omega
          rw [step_nextC_stop hs pt (g + 1) (i + 1) _ (Or.inl hmem1)]
          refine ⟨?_, ?_, ?_, ha4⟩
          · show insert i _ = _
            rw [ha1]
            exact insert_union_Icc i ((hs.length : ℤ) - 2) st.used (by omega)
          · rw [ha2, h12, hdropc, testedIds_cons]
            simp
          · rw [ha3, h12, hdropc, invokedIds_cons]
            simp [hmB]
        · -- matched but never delegates: the driver's own tail advances
          rw [if_neg (by simp [hmem])] at hActs
          exact body_finish hs pt g i st _ gh (IH (g + 1 + 1) (by omega)).1 hi hn hfresh
            hgh0 hActs.1 hActs.2.2.1 (by rw [hActs.2.1]; simp [hmB])
            (step_ev_fix hs pt g _ _).1 (step_ev_fix hs pt g _ _).2 hActs.2.2.2
            (by omega)
      · -- last slot: the continuation was created as the noop closure
        have hcrf : decide ((i + 1) ∉ st.used ∧ (i + 1) + 1 < (hs.length : ℤ)) = false := by
          rw [decide_eq_false_iff_not]
          push_neg
          intro _
          omega
        have hA : (step hs pt (g + 1 + 1) (Call.invoke (i + 1)) st).1 =
            (step hs pt g (Call.acts gh.acts false (i + 1))
              { st with ev := { st.ev with route := gh.route },
                        log := st.log ++ [gh.hid],
                        tested := st.tested ++ [gh.hid] }).1 := by
          rw [hinv, hcrf, step_mid_match hs pt g gh false (i + 1) st hm]
        rw [hA]
        have hActs := (IH g (by omega)).2.2 gh.acts false (i + 1)
          { st with ev := { st.ev with route := gh.route },
                    log := st.log ++ [gh.hid], tested := st.tested ++ [gh.hid] }
          (by omega) (fun x hx => hfresh x (by omega)) (fun h => by simp at h)
          (by rw [h12]; omega)
        rw [if_neg (by simp)] at hActs
        exact body_finish hs pt g i st _ gh (IH (g + 1 + 1) (by omega)).1 hi hn hfresh
          hgh0 hActs.1 hActs.2.2.1 (by rw [hActs.2.1]; simp [hmB])
          (step_ev_fix hs pt g _ _).1 (step_ev_fix hs pt g _ _).2 hActs.2.2.2
          (by omega)
    · -- the wrapper does not match: only the route and test records move
      have hmf :
          (pt gh.route st.ev.href && (gh.method == st.ev.method || gh.method == "ANY")) = false := by
        simpa using hm
      have hmB : matchesB pt st.ev.href st.ev.method gh = false := hmf
      have hA : (step hs pt (g + 1 + 1) (Call.invoke (i + 1)) st).1 =
          { st with ev := { st.ev with route := gh.route },
                    tested := st.tested ++ [gh.hid] } := by
        rw [hinv, step_mid_nonmatch hs pt g gh _ (i + 1) st hmf]
      rw [hA]
      exact body_finish hs pt g i st _ gh (IH (g + 1 + 1) (by omega)).1 hi hn hfresh
        hgh0 rfl rfl (by simp [hmB]) rfl rfl rfl (by omega)
  · -- acts: a handler's behaviour list running at slot j
    intro l cr j st hj hfresh hcr hf
    have hge := suffixFuel_ge (hs.drop (j + 1).toNat)
    obtain ⟨g, rfl⟩ : ∃ g, f = g + 1 := ⟨f - 1, by omega⟩
    cases l with
    | nil =>
      rw [if_neg (by simp)]
      rw [step_acts_nil]
      exact ⟨rfl, rfl, rfl, rfl⟩
    | cons a rest =>
      cases a with
      | respond r =>
        rw [step_acts_respond]
        have hfresh2 : freshFrom j (doRespond r st) := by
          intro x hx
          rw [doRespond_used]
          exact hfresh x hx
        have hActs := (IH g (by omega)).2.2 rest cr j (doRespond r st) hj hfresh2 hcr
          (by simp at hf ⊢; omega)
        by_cases hcnd : cr = true ∧ Act.callNext ∈ rest
        · rw [if_pos ⟨hcnd.1, List.mem_cons_of_mem _ hcnd.2⟩]
          rw [if_pos hcnd] at hActs
          simp only [ChainOut] at hActs ⊢
          refine ⟨?_, ?_, ?_, hActs.2.2.2⟩
          · rw [hActs.1, doRespond_used]
          · rw [hActs.2.1, doRespond_tested]
          · rw [hActs.2.2.1, doRespond_log, doRespond_ev]
        · rw [if_neg (fun hcl => hcnd ⟨hcl.1, by simpa using hcl.2⟩)]
          rw [if_neg hcnd] at hActs
          refine ⟨?_, ?_, ?_, ?_⟩
          · rw [hActs.1, doRespond_used]
          · rw [hActs.2.1, doRespond_log]
          · rw [hActs.2.2.1, doRespond_tested]
          · rw [hActs.2.2.2, doRespond_ev]
      | callNext =>
        cases cr with
        | false =>
          rw [if_neg (by simp)]
          rw [step_acts_next]
          have hif : (if (false : Bool) then
              (step hs pt g (Call.body j) st).1 else st) = st := rfl
          rw [hif]
          have hActs := (IH g (by omega)).2.2 rest false j st hj hfresh
            (fun h => by simp at h) (by simp at hf ⊢; omega)
          rw [if_neg (by simp)] at hActs
          exact hActs
        | true =>
          rw [if_pos ⟨rfl, List.mem_cons_self _ _⟩]
          rw [step_acts_next]
          have hif : (if (true : Bool) then
              (step hs pt g (Call.body j) st).1 else st) =
              (step hs pt g (Call.body j) st).1 := rfl
          rw [hif]
          have hbody := (IH g (by omega)).2.1 j st hj (hcr rfl) hfresh
            (by simp at hf; omega)
          simp only [ChainOut] at hbody ⊢
          have hspent := acts_spent hs pt rest g true j
            (step hs pt g (Call.body j) st).1
            (fun _ => ⟨by rw [hbody.1]; exact Finset.subset_union_right, hcr rfl⟩)
            (by simp at hf; omega)
          refine ⟨?_, ?_, ?_, ?_⟩
          · rw [hspent.1, hbody.1]
          · rw [hspent.2.2.1, hbody.2.1]
          · rw [hspent.2.1, hbody.2.2.1]
          · rw [hspent.2.2.2, hbody.2.2.2]

end MwServer

namespace MwServer

/-- Outcome of a full `#run` dispatch (line 72: `next()()` from the fresh
state): all wrappers are tested once in list order, exactly the matching
subsequence of handlers is invoked in order, and — when any handler is
registered — the event's route ends at the last wrapper's pattern. -/
theorem runChain_spec (hs : List GH) (pt : String → String → Bool) (ev : Event) :
    (runChain hs pt ev).tested = testedIds hs ∧
    (runChain hs pt ev).log = invokedIds pt ev.href ev.method hs ∧
    (hs ≠ [] → (runChain hs pt ev).ev.route = (lastD dGH hs).route) := by
  have hdrop : hs.drop ((-1 : ℤ) + 1).toNat = hs := rfl
  have hmain := (chain_main hs pt (suffixFuel hs + 1)).1 (-1) (initSt ev) le_rfl
    (fun x _ => by simp [initSt])
    (by rw [hdrop])
  by_cases hn : (-1 : ℤ) + 1 < (hs.length : ℤ)
  · rw [if_pos hn] at hmain
    simp only [ChainOut, hdrop] at hmain
    refine ⟨hmain.2.1, hmain.2.2.1, fun _ => hmain.2.2.2⟩
  · rw [if_neg hn] at hmain
    have hnil : hs = [] := by
      have : hs.length = 0 := by omega
      exact List.length_eq_zero.mp this
    subst hnil
    show (step _ pt _ (Call.nextC (-1)) (initSt ev)).1.tested = _ ∧ _
    rw [hmain]
    refine ⟨rfl, rfl, fun h => absurd rfl h⟩

/-! ## The `Server` registration surface (lines 96–131) -/

/-- Source `Middleware(method, route, handler)` applied to each of a call's
handler arguments, in order; a plain handler is its `(hid, acts)` pair. -/
def wrapAll (route method : String) (handlers : List (Nat × List Act)) : List GH :=
  handlers.map (fun h => ⟨method, route, h.1, h.2⟩)

/-- The two handler lists a `Server` owns (lines 24–25). -/
structure ServerState where
  middleware : List GH
  listeners : List GH
deriving DecidableEq

/-- Source `Server.on(route, method)(...handlers)` (lines 96–100): wrap each
handler and push onto the listener list.  Source defaults are
`route = '/*'`, `method = 'GET'`. -/
def serverOn (s : ServerState) (route method : String)
    (handlers : List (Nat × List Act)) : ServerState :=
  { s with listeners := s.listeners ++ wrapAll route method handlers }

/-- Source `Server.use(route, method)(...handlers)`, plain-handler branch
(lines 125–131): wrap each handler and push onto the middleware list.
Source defaults are `route = '/*'`, `method = 'ANY'`. -/
def serverUse (s : ServerState) (route method : String)
    (handlers : List (Nat × List Act)) : ServerState :=
  { s with middleware := s.middleware ++ wrapAll route method handlers }

/-- Source `Server.use(...routers)`, Router branch (lines 128–129): splice each
router's pre-wrapped handler list into the middleware list, in order. -/
def serverUseRouters (s : ServerState) (routers : List (List GH)) : ServerState :=
  { s with middleware := s.middleware ++ routers.flatten }

/-- One API-surface registration call. -/
inductive RegOp where
  | onOp : String → String → List (Nat × List Act) → RegOp
  | useOp : String → String → List (Nat × List Act) → RegOp

def applyReg (s : ServerState) : RegOp → ServerState
  | RegOp.onOp route method hsx => serverOn s route method hsx
  | RegOp.useOp route method hsx => serverUse s route method hsx

/-- All middleware registered by a sequence of calls, in call order. -/
def middlewareOf : List RegOp → List GH
  | [] => []
  | RegOp.onOp _ _ _ :: rest => middlewareOf rest
  | RegOp.useOp route method hsx :: rest => wrapAll route method hsx ++ middlewareOf rest

/-- All listeners registered by a sequence of calls, in call order. -/
def listenersOf : List RegOp → List GH
  | [] => []
  | RegOp.onOp route method hsx :: rest => wrapAll route method hsx ++ listenersOf rest
  | RegOp.useOp _ _ _ :: rest => listenersOf rest

/-- Line 57: the per-request chain is the concatenation
`[...this.#middleware, ...this.#listeners]`. -/
def serverChain (s : ServerState) : List GH := s.middleware ++ s.listeners

/-- Source `Server.#run` for a server state: dispatch over the concatenated chain. -/
def serverRun (s : ServerState) (pt : String → String → Bool) (ev : Event) : St :=
  runChain (serverChain s) pt ev

/-- The empty server (no handlers registered). -/
def emptyServer : ServerState := ⟨[], []⟩

theorem foldl_applyReg (ops : List RegOp) : ∀ s : ServerState,
    (ops.foldl applyReg s).middleware = s.middleware ++ middlewareOf ops ∧
    (ops.foldl applyReg s).listeners = s.listeners ++ listenersOf ops := by
  induction ops with
  | nil => intro s; simp [middlewareOf, listenersOf]
  | cons op rest IH =>
    intro s
    cases op with
    | onOp route method hsx =>
      have := IH (applyReg s (RegOp.onOp route method hsx))
      refine ⟨?_, ?_⟩
      · rw [List.foldl_cons, this.1]
        simp [applyReg, serverOn, middlewareOf]
      · rw [List.foldl_cons, this.2]
        simp [applyReg, serverOn, listenersOf]
    | useOp route method hsx =>
      have := IH (applyReg s (RegOp.useOp route method hsx))
      refine ⟨?_, ?_⟩
      · rw [List.foldl_cons, this.1]
        simp [applyReg, serverUse, middlewareOf]
      · rw [List.foldl_cons, this.2]
        simp [applyReg, serverUse, listenersOf]

end MwServer

namespace MwServer

/-! ## The single-shot respond guard (lines 41–50) -/

theorem doRespond_already (r : ResponseInit) (st : St) (h : st.responded = true) :
    doRespond r st = st := by
  simp [doRespond, h]

theorem doRespond_fresh (r : ResponseInit) (st : St) (h : st.responded = false) :
    doRespond r st = { st with sent := st.sent ++ [r], responded := true } := by
  simp [doRespond, h]

theorem foldl_doRespond_already (rs : List ResponseInit) : ∀ st : St,
    st.responded = true → rs.foldl (fun s x => doRespond x s) st = st := by
  induction rs with
  | nil => intro st _; rfl
  | cons r rest IH =>
    intro st h
    rw [List.foldl_cons, doRespond_already r st h]
    exact IH st h

/-! ## Static file serving (lines 140–164) -/

/-- JS `String.split(sep)` for a one-character separator, on character
lists: splitting the empty string gives `[""]`, and every separator
occurrence opens a new segment. -/
def jsSplit (sep : Char) : List Char → List (List Char)
  | [] => [[]]
  | c :: rest =>
    match jsSplit sep rest with
    | [] => [[]]
    | seg :: segs => if c == sep then [] :: seg :: segs else (c :: seg) :: segs

theorem jsSplit_ne_nil (sep : Char) (s : List Char) : jsSplit sep s ≠ [] := by
  cases s with
  | nil => simp [jsSplit]
  | cons c rest =>
    simp only [jsSplit]
    cases h : jsSplit sep rest with
    | nil => simp
    | cons seg segs =>
      by_cases hc : (c == sep) = true <;> simp [hc]

theorem jsSplit_no_sep (sep : Char) : ∀ s : List Char, sep ∉ s → jsSplit sep s = [s] := by
  intro s
  induction s with
  | nil => intro _; rfl
  | cons c rest IH =>
    intro h
    have hc : (c == sep) = false := by
      simp only [List.mem_cons, not_or] at h
      simp [beq_eq_false_iff_ne]
      exact fun he => h.1 he.symm
    have hrest : sep ∉ rest := by
      simp only [List.mem_cons, not_or] at h
      exact h.2
    simp only [jsSplit, IH hrest, hc]
    simp

theorem jsSplit_single (sep : Char) : ∀ s t : List Char,
    jsSplit sep s = [t] → s = t ∧ sep ∉ s := by
  intro s
  induction s with
  | nil =>
    intro t ht
    simp only [jsSplit, List.cons.injEq] at ht
    exact ⟨ht.1, by simp⟩
  | cons c rest IH =>
    intro t ht
    cases h : jsSplit sep rest with
    | nil => exact absurd h (jsSplit_ne_nil sep rest)
    | cons seg segs =>
      simp only [jsSplit, h] at ht
      by_cases hc : (c == sep) = true
      · rw [if_pos hc] at ht
        simp at ht
      · rw [if_neg hc] at ht
        simp only [List.cons.injEq] at ht
        obtain ⟨h1, h2⟩ := ht
        subst h2
        have := IH seg (by rw [h])
        refine ⟨by rw [← h1, this.1], ?_⟩
        simp only [List.mem_cons, not_or]
        exact ⟨fun he => hc (by simp [he]), this.2⟩

/-- The suffix of `s` after the last occurrence of `c`, and all of `s`
when `c` does not occur — the reading of `split(c).at(-1)` used by the
specification ("the substring of the final path segment after its last
dot"). -/
def afterLast (c : Char) : List Char → List Char
  | [] => []
  | x :: rest =>
    if c ∈ rest then afterLast c rest
    else if x == c then rest else x :: rest

theorem afterLast_no_sep (c : Char) : ∀ s : List Char, c ∉ s → afterLast c s = s := by
  intro s
  induction s with
  | nil => intro _; rfl
  | cons x rest _ =>
    intro h
    simp only [List.mem_cons, not_or] at h
    have hx : (x == c) = false := by
      simp [beq_eq_false_iff_ne]
      exact fun he => h.1 he.symm
    simp [afterLast, h.2, hx]

/-- JS `split(c).at(-1)` computes the suffix after the last separator. -/
theorem jsSplit_lastD (c : Char) : ∀ s : List Char,
    lastD [] (jsSplit c s) = afterLast c s := by
  intro s
  induction s with
  | nil => rfl
  | cons x rest IH =>
    cases h : jsSplit c rest with
    | nil => exact absurd h (jsSplit_ne_nil c rest)
    | cons seg segs =>
      simp only [jsSplit, h]
      by_cases hc : (x == c) = true
      · rw [if_pos hc]
        have hl : lastD [] ([] :: seg :: segs) = lastD [] (seg :: segs) := rfl
        rw [hl, ← h, IH]
        by_cases hr : c ∈ rest
        · simp [afterLast, hr]
        · rw [afterLast_no_sep c rest hr]
          have hx : x = c := by simpa using hc
          simp [afterLast, hr, hx]
      · rw [if_neg hc]
        cases segs with
        | nil =>
          have hs := jsSplit_single c rest seg (by rw [h])
          have hrfl : lastD [] [x :: seg] = x :: seg := rfl
          rw [hrfl]
          have hnr : c ∉ rest := hs.2
          have hnseg : c ∉ seg := by rw [← hs.1]; exact hnr
          simp [afterLast, hnr, hc, hs.1, hnseg]
        | cons s2 ss =>
          have hl1 : lastD [] ((x :: seg) :: s2 :: ss) = lastD [] (s2 :: ss) := rfl
          have hl2 : lastD [] (seg :: s2 :: ss) = lastD [] (s2 :: ss) := rfl
          rw [hl1, ← hl2, ← h, IH]
          have hr : c ∈ rest := by
            by_contra hnr
            rw [jsSplit_no_sep c rest hnr] at h
            simp at h
          simp [afterLast, hr]

end MwServer

namespace MwServer

/-- Line 141, first replace: `route.replace(/\/?\*?$/, '/*')` strips the
regex's match at the end of the string — `"/*"`, a bare `"*"`, or a bare
`"/"` — before `"/*"` is appended. -/
def stripRouteEnd (r : List Char) : List Char :=
  match r.reverse with
  | '*' :: '/' :: rest => rest.reverse
  | '*' :: rest => rest.reverse
  | '/' :: rest => rest.reverse
  | _ => r

/-- Line 141, second replace: `/\/+/g → '/'` collapses every run of
slashes to a single slash (`prev` is the last character kept). -/
def collapseAux (prev : Char) : List Char → List Char
  | [] => []
  | c :: rest =>
    if prev == '/' && c == '/' then collapseAux prev rest
    else c :: collapseAux c rest

def collapseSlashes : List Char → List Char
  | [] => []
  | c :: rest => c :: collapseAux c rest

/-- Line 141: ``route = `/${route.replace(/\/?\*?$/, '/*')}`.replace(/\/+/g, '/')``. -/
def normalizeStaticRoute (route : List Char) : List Char :=
  collapseSlashes ('/' :: (stripRouteEnd route ++ ['/', '*']))

/-- Line 150: `pathname.replace(/^\//, '')` — drop one leading slash. -/
def stripLeadSlash : List Char → List Char
  | '/' :: rest => rest
  | s => s

/-- JS `array.join('/')`. -/
def joinSlash : List (List Char) → List Char
  | [] => []
  | [s] => s
  | s :: rest => s ++ '/' :: joinSlash rest

/-- Lines 149–151 for a normalized route `nroute` and a request pathname
(`new URL(href).pathname`, a collaborator value): `base` is the route's
literal segments (dropping `'*'` and empty segments), `rest` the pathname
segments past them (`filter((_, index) => index >= base.length)`), and
the path is ``file://${[Deno.cwd(), root, ...rest].join('/')}``. -/
def staticPath (cwd root nroute pathname : List Char) : List Char :=
  let base := (jsSplit '/' nroute).filter (fun seg => seg != ['*'] && seg != [])
  let rest := (jsSplit '/' (stripLeadSlash pathname)).drop base.length
  "file://".toList ++ joinSlash (cwd :: root :: rest)

/-- Line 154: the content-type lookup key
`path.split('/').at(-1)?.split('.').at(-1) ?? ''`. -/
def extKey (path : List Char) : List Char :=
  lastD [] (jsSplit '.' (lastD [] (jsSplit '/' path)))

/-- Line 154: `CONTENT_TYPES[key] ?? 'text/plain'`; the `CONTENT_TYPES`
table of `constants.ts` is an external collaborator, taken as an
abstract partial map from extension keys to MIME types. -/
def contentTypeOf (ctypes : List Char → Option (List Char))
    (path : List Char) : List Char :=
  (ctypes (extKey path)).getD "text/plain".toList

/-- Lines 156–163: `fetch(path)` succeeds and the handler responds with
the file bytes and the content-type header, or the promise rejects and
the `.catch` responds `{status: 404}`.  The file read is the abstract
collaborator `readFile`. -/
def staticResponseFor (readFile : List Char → Option (List Nat))
    (ctypes : List Char → Option (List Char)) (path : List Char) : ResponseInit :=
  match readFile path with
  | some bytes => { body := some bytes, contentType := some (contentTypeOf ctypes path) }
  | none => { status := some 404 }

/-- The whole body of the handler `Server.static` registers
(lines 147–163), for one request: compute the path from the normalized
route (line 141) and the pathname, read the file, and hand the outcome to
the once-only `respond` of lines 44–49. -/
def staticHandlerRun (readFile : List Char → Option (List Nat))
    (ctypes : List Char → Option (List Char))
    (cwd route root pathname : List Char) (st : St) : St :=
  doRespond
    (staticResponseFor readFile ctypes
      (staticPath cwd root (normalizeStaticRoute route) pathname)) st

/-- Specification-side reading: the final path segment is the suffix
after the last `'/'` (the whole path when it has no slash). -/
def lastSegment (path : List Char) : List Char := afterLast '/' path

/-- Specification-side reading: the extension of a filename is the
substring after its last `'.'`, or the entire filename when it contains
no dot. -/
def extOf (s : List Char) : List Char := afterLast '.' s

theorem extKey_eq_extOf_lastSegment (path : List Char) :
    extKey path = extOf (lastSegment path) := by
  unfold extKey extOf lastSegment
  rw [jsSplit_lastD, jsSplit_lastD]

end MwServer

namespace MwServer

/-! ## The claims -/

/-- C1: For a chain of three guarded handlers that all match the request,
where the middle handler never calls its continuation, all three handlers
run: after the slot at any position completes, the dispatch driver
unconditionally advances to the next position (`used.add(index);
next(index + 1)()`, lines 67–68), regardless of whether that slot's
handler matched or called its own continuation.  The middle handler's
behaviour `a2` is arbitrary as long as it never invokes `next`. -/
theorem c1_three_chain_all_run (a2 : List Act) (h : Act.callNext ∉ a2) :
    (runChain
      [⟨"ANY", "/a", 1, [Act.callNext]⟩, ⟨"ANY", "/b", 2, a2⟩,
       ⟨"ANY", "/c", 3, [Act.callNext]⟩]
      (fun _ _ => true) ⟨"http://h/x", "GET", ""⟩).log = [1, 2, 3] := by
  rw [(runChain_spec _ (fun _ _ => true) ⟨"http://h/x", "GET", ""⟩).2.1]
  rfl

theorem c1_witness :
    Act.callNext ∉ ([] : List Act) ∧
    (runChain
      [⟨"ANY", "/a", 1, [Act.callNext]⟩, ⟨"ANY", "/b", 2, []⟩,
       ⟨"ANY", "/c", 3, [Act.callNext]⟩]
      (fun _ _ => true) ⟨"http://h/x", "GET", ""⟩).log = [1, 2, 3] :=
  ⟨by decide, c1_three_chain_all_run [] (by decide)⟩

/-- C2: For every ordered list of registered guarded handlers and every
request, the dispatch chain invokes exactly the subsequence of handlers
whose (method, pattern) pair matches the request, in registration order,
each exactly once; and every guarded handler in the list is tested
exactly once, in order. -/
theorem c2_exact_matching_subsequence (hs : List GH)
    (pt : String → String → Bool) (ev : Event) :
    (runChain hs pt ev).log = invokedIds pt ev.href ev.method hs ∧
    (runChain hs pt ev).tested = testedIds hs :=
  ⟨(runChain_spec hs pt ev).2.1, (runChain_spec hs pt ev).1⟩

/-- C3: Invoking the continuation for position `i` when position `i` is
already consumed, or when there is no handler at position `i + 1`, is a
no-op (the line-61 guard); and calling the continuation for `i` a second
time after a first call from a fresh state changes nothing — no
additional handler is invoked. -/
theorem c3_continuation_noop (hs : List GH) (pt : String → String → Bool)
    (i : ℤ) (st : St) :
    ((i ∈ st.used ∨ (hs.length : ℤ) ≤ i + 1) → callCont hs pt i st = st) ∧
    (-1 ≤ i → freshFrom i st →
      callCont hs pt i (callCont hs pt i st) = callCont hs pt i st) := by
  constructor
  · intro h
    unfold callCont
    rw [step_nextC_stop hs pt (suffixFuel hs) i st h]
  · intro hi hfresh
    by_cases hn : i + 1 < (hs.length : ℤ)
    · have hmain := (chain_main hs pt (suffixFuel hs + 1)).1 i st hi hfresh
        (by have := suffixFuel_drop_le hs (i + 1).toNat; omega)
      rw [if_pos hn] at hmain
      have hmem : i ∈ (callCont hs pt i st).used := by
        show i ∈ (step hs pt (suffixFuel hs + 1) (Call.nextC i) st).1.used
        rw [hmain.1]
        apply Finset.mem_union_right
        rw [Finset.mem_Icc]
        omega
      show (step hs pt (suffixFuel hs + 1) (Call.nextC i) (callCont hs pt i st)).1 = _
      rw [step_nextC_stop hs pt (suffixFuel hs) i _ (Or.inl hmem)]
    · have hfirst : callCont hs pt i st = st := by
        unfold callCont
        rw [step_nextC_stop hs pt (suffixFuel hs) i st (Or.inr (by omega))]
      rw [hfirst, hfirst]

theorem c3_witness :
    (callCont [] (fun _ _ => true) 0 (initSt ⟨"h", "GET", ""⟩) =
      initSt ⟨"h", "GET", ""⟩) ∧
    (callCont [⟨"ANY", "/", 7, []⟩] (fun _ _ => true) (-1)
        (callCont [⟨"ANY", "/", 7, []⟩] (fun _ _ => true) (-1)
          (initSt ⟨"h", "GET", ""⟩)) =
      callCont [⟨"ANY", "/", 7, []⟩] (fun _ _ => true) (-1)
        (initSt ⟨"h", "GET", ""⟩)) :=
  ⟨(c3_continuation_noop [] (fun _ _ => true) 0 (initSt ⟨"h", "GET", ""⟩)).1
      (by decide),
   (c3_continuation_noop [⟨"ANY", "/", 7, []⟩] (fun _ _ => true) (-1)
      (initSt ⟨"h", "GET", ""⟩)).2 (by decide)
      (fun x _ => Finset.not_mem_empty x)⟩

end MwServer

namespace MwServer

/-- C4: A guarded handler produced by `Middleware(method, route, handler)`
runs its inner handler and returns matched = `true` exactly when the
pattern test succeeds and the method matches (equal, or `"ANY"`);
otherwise it returns matched = `false` without invoking the inner handler
or the continuation — the state is left untouched except for the route
assignment and the test record, and no error is raised. -/
theorem c4_wrapper_guard (hs : List GH) (pt : String → String → Bool)
    (f : Nat) (gh : GH) (cr : Bool) (j : ℤ) (st : St) :
    ((step hs pt (f + 1) (Call.mid gh cr j) st).2 = true ↔
      (pt gh.route st.ev.href && (gh.method == st.ev.method || gh.method == "ANY")) = true) ∧
    ((pt gh.route st.ev.href && (gh.method == st.ev.method || gh.method == "ANY")) = false →
      step hs pt (f + 1) (Call.mid gh cr j) st =
        ({ st with ev := { st.ev with route := gh.route },
                   tested := st.tested ++ [gh.hid] }, false)) ∧
    ((pt gh.route st.ev.href && (gh.method == st.ev.method || gh.method == "ANY")) = true →
      ∃ t, (step hs pt (f + 1) (Call.mid gh cr j) st).1.log = st.log ++ gh.hid :: t) := by
  by_cases hm :
      (pt gh.route st.ev.href && (gh.method == st.ev.method || gh.method == "ANY")) = true
  · rw [step_mid_match hs pt f gh cr j st hm]
    refine ⟨by simp [hm], ?_, ?_⟩
    · intro hf
      rw [hm] at hf
      cases hf
    · intro _
      obtain ⟨t, ht⟩ := step_log_mono hs pt f (Call.acts gh.acts cr j)
        { st with ev := { st.ev with route := gh.route },
                  log := st.log ++ [gh.hid], tested := st.tested ++ [gh.hid] }
      exact ⟨t, by rw [ht]; simp⟩
  · have hmf :
        (pt gh.route st.ev.href && (gh.method == st.ev.method || gh.method == "ANY")) = false := by
      simpa using hm
    rw [step_mid_nonmatch hs pt f gh cr j st hmf]
    refine ⟨by simp [hmf], fun _ => rfl, ?_⟩
    intro ht
    rw [hmf] at ht
    cases ht

theorem c4_witness :
    ((step [] (fun _ _ => true) 1
        (Call.mid ⟨"ANY", "/p", 5, []⟩ true 0) (initSt ⟨"h", "GET", ""⟩)).2 = true ↔
      ((fun _ _ => true) "/p" "h" && ("ANY" == "GET" || "ANY" == "ANY")) = true) ∧
    (step [] (fun _ _ => true) 1
        (Call.mid ⟨"POST", "/p", 4, []⟩ true 0) (initSt ⟨"h", "GET", ""⟩) =
      ({ initSt ⟨"h", "GET", ""⟩ with
          ev := { (initSt ⟨"h", "GET", ""⟩).ev with route := "/p" },
          tested := (initSt ⟨"h", "GET", ""⟩).tested ++ [4] }, false)) ∧
    (∃ t, (step [] (fun _ _ => true) 1
        (Call.mid ⟨"ANY", "/p", 5, []⟩ true 0) (initSt ⟨"h", "GET", ""⟩)).1.log =
      (initSt ⟨"h", "GET", ""⟩).log ++ 5 :: t) :=
  ⟨(c4_wrapper_guard [] (fun _ _ => true) 0 ⟨"ANY", "/p", 5, []⟩ true 0
      (initSt ⟨"h", "GET", ""⟩)).1,
   (c4_wrapper_guard [] (fun _ _ => true) 0 ⟨"POST", "/p", 4, []⟩ true 0
      (initSt ⟨"h", "GET", ""⟩)).2.1 (by decide),
   (c4_wrapper_guard [] (fun _ _ => true) 0 ⟨"ANY", "/p", 5, []⟩ true 0
      (initSt ⟨"h", "GET", ""⟩)).2.2 (by decide)⟩

/-- C5: Every guarded handler, when invoked, sets `event.route` to its
own route pattern unconditionally — on a failed match the resulting state
is exactly the input state with the route overwritten (and the test
recorded) — so after the chain runs, the event's route field equals the
pattern of the last wrapper tested, which for a nonempty chain is the
last handler of the list. -/
theorem c5_route_always_set (hs : List GH) (pt : String → String → Bool) :
    (∀ (f : Nat) (gh : GH) (cr : Bool) (j : ℤ) (st : St),
      (pt gh.route st.ev.href && (gh.method == st.ev.method || gh.method == "ANY")) = false →
      step hs pt (f + 1) (Call.mid gh cr j) st =
        ({ st with ev := { st.ev with route := gh.route },
                   tested := st.tested ++ [gh.hid] }, false)) ∧
    (∀ ev : Event, hs ≠ [] →
      (runChain hs pt ev).ev.route = (lastD dGH hs).route) :=
  ⟨fun f gh cr j st hmf => step_mid_nonmatch hs pt f gh cr j st hmf,
   fun ev h => (runChain_spec hs pt ev).2.2 h⟩

theorem c5_witness :
    (step [] (fun _ _ => true) 1
        (Call.mid ⟨"POST", "/q", 9, []⟩ false 0) (initSt ⟨"h", "GET", ""⟩) =
      ({ initSt ⟨"h", "GET", ""⟩ with
          ev := { (initSt ⟨"h", "GET", ""⟩).ev with route := "/q" },
          tested := (initSt ⟨"h", "GET", ""⟩).tested ++ [9] }, false)) ∧
    (runChain [⟨"ANY", "/a", 1, [Act.callNext]⟩, ⟨"GET", "/b", 2, []⟩]
        (fun _ _ => true) ⟨"h", "GET", ""⟩).ev.route =
      (lastD dGH [⟨"ANY", "/a", 1, [Act.callNext]⟩, ⟨"GET", "/b", 2, []⟩]).route :=
  ⟨(c5_route_always_set [] (fun _ _ => true)).1 0 ⟨"POST", "/q", 9, []⟩ false 0
      (initSt ⟨"h", "GET", ""⟩) (by decide),
   (c5_route_always_set [⟨"ANY", "/a", 1, [Act.callNext]⟩, ⟨"GET", "/b", 2, []⟩]
      (fun _ _ => true)).2 ⟨"h", "GET", ""⟩ (by decide)⟩

/-- C6: For one request, calling `respond` more than once transmits
exactly one response: the first call appends its response to the
transmitted list and sets the `responded` flag, and every later call is a
silent no-op (lines 44–49). -/
theorem c6_first_responder_wins (st : St) (r : ResponseInit)
    (rs : List ResponseInit) (h : st.responded = false) :
    ((r :: rs).foldl (fun s x => doRespond x s) st).sent = st.sent ++ [r] ∧
    ((r :: rs).foldl (fun s x => doRespond x s) st).responded = true := by
  rw [List.foldl_cons, doRespond_fresh r st h, foldl_doRespond_already rs _ rfl]
  exact ⟨rfl, rfl⟩

theorem c6_witness :
    (([{ status := some 200 }, { status := some 500 },
       { status := some 301 }] : List ResponseInit).foldl
        (fun s x => doRespond x s) (initSt ⟨"h", "GET", ""⟩)).sent =
      (initSt ⟨"h", "GET", ""⟩).sent ++ [{ status := some 200 }] ∧
    (([{ status := some 200 }, { status := some 500 },
       { status := some 301 }] : List ResponseInit).foldl
        (fun s x => doRespond x s) (initSt ⟨"h", "GET", ""⟩)).responded = true :=
  c6_first_responder_wins (initSt ⟨"h", "GET", ""⟩) { status := some 200 }
    [{ status := some 500 }, { status := some 301 }] rfl

/-- C7: For every interleaving of `use` and `on` registration calls, the
per-request chain is the concatenation of the middleware list followed by
the listener list, so every handler registered via `use` is tested before
every handler registered via `on`. -/
theorem c7_middleware_before_listeners (ops : List RegOp) :
    serverChain (ops.foldl applyReg emptyServer) =
      middlewareOf ops ++ listenersOf ops := by
  have h := foldl_applyReg ops emptyServer
  unfold serverChain
  rw [h.1, h.2]
  simp [emptyServer]

end MwServer

namespace MwServer

/-- The server state of the C8 scenario: `use('/', 'ANY', logHandler)`
(hid 1, delegating) followed by `on('/hello', 'GET', helloHandler)`
(hid 2). -/
def s8 : ServerState :=
  applyReg (applyReg emptyServer (RegOp.useOp "/" "ANY" [(1, [Act.callNext])]))
    (RegOp.onOp "/hello" "GET" [(2, [])])

/-- C8: After `use('/', 'ANY', logHandler)` and `on('/hello', 'GET',
helloHandler)`, for any pattern collaborator under which `'/'` and
`'/hello'` both match the request's target, a GET request runs
`logHandler` then `helloHandler`, and a POST request to the same target
runs only `logHandler` (listener method mismatch). -/
theorem c8_use_on_scenario (pt : String → String → Bool) (href : String)
    (h1 : pt "/" href = true) (h2 : pt "/hello" href = true) :
    (serverRun s8 pt ⟨href, "GET", ""⟩).log = [1, 2] ∧
    (serverRun s8 pt ⟨href, "POST", ""⟩).log = [1] := by
  have hchain : serverChain s8 =
      [⟨"ANY", "/", 1, [Act.callNext]⟩, ⟨"GET", "/hello", 2, []⟩] := rfl
  unfold serverRun
  rw [hchain]
  constructor <;> rw [(runChain_spec _ pt _).2.1] <;>
    simp [invokedIds, matchesB, List.filter, h1, h2]

theorem c8_witness :
    (serverRun s8 (fun _ _ => true) ⟨"http://h/hello", "GET", ""⟩).log = [1, 2] ∧
    (serverRun s8 (fun _ _ => true) ⟨"http://h/hello", "POST", ""⟩).log = [1] :=
  c8_use_on_scenario (fun _ _ => true) "http://h/hello" rfl rfl

/-- C9: The handler registered by `static(route, root)` recovers a failed
file read locally, responding `{status: 404}`; on a successful read it
responds with the file bytes and a content-type header. -/
theorem c9_static_read_failure (readFile : List Char → Option (List Nat))
    (ctypes : List Char → Option (List Char))
    (cwd route root pathname : List Char) (st : St)
    (h : st.responded = false) :
    (readFile (staticPath cwd root (normalizeStaticRoute route) pathname) = none →
      (staticHandlerRun readFile ctypes cwd route root pathname st).sent =
        st.sent ++ [{ status := some 404 }]) ∧
    (∀ bytes,
      readFile (staticPath cwd root (normalizeStaticRoute route) pathname) = some bytes →
      (staticHandlerRun readFile ctypes cwd route root pathname st).sent =
        st.sent ++ [{ body := some bytes, contentType := some (contentTypeOf ctypes (staticPath cwd root (normalizeStaticRoute route) pathname)) }]) := by
  unfold staticHandlerRun staticResponseFor
  constructor
  · intro hn
    rw [hn, doRespond_fresh _ _ h]
  · intro bytes hb
    rw [hb, doRespond_fresh _ _ h]

theorem c9_witness :
    ((staticHandlerRun (fun _ => none) (fun _ => none)
        "/cwd".toList "/files".toList "public".toList "/files/a.txt".toList
        (initSt ⟨"h", "GET", ""⟩)).sent =
      (initSt ⟨"h", "GET", ""⟩).sent ++ [{ status := some 404 }]) ∧
    ((staticHandlerRun (fun _ => some [104, 105]) (fun _ => none)
        "/cwd".toList "/files".toList "public".toList "/files/a.txt".toList
        (initSt ⟨"h", "GET", ""⟩)).sent =
      (initSt ⟨"h", "GET", ""⟩).sent ++ [{ body := some [104, 105], contentType := some (contentTypeOf (fun _ => none) (staticPath "/cwd".toList "public".toList (normalizeStaticRoute "/files".toList) "/files/a.txt".toList)) }]) :=
  ⟨(c9_static_read_failure (fun _ => none) (fun _ => none) "/cwd".toList
      "/files".toList "public".toList "/files/a.txt".toList
      (initSt ⟨"h", "GET", ""⟩) rfl).1 rfl,
   (c9_static_read_failure (fun _ => some [104, 105]) (fun _ => none) "/cwd".toList
      "/files".toList "public".toList "/files/a.txt".toList
      (initSt ⟨"h", "GET", ""⟩) rfl).2 [104, 105] rfl⟩

/-- C10: The static handler's content-type lookup key is the substring of
the final path segment after its last `'.'`; for a filename containing no
dot the entire filename is the key; and a key absent from the
content-type table falls back to `'text/plain'`. -/
theorem c10_content_type_key (ctypes : List Char → Option (List Char))
    (path : List Char) :
    extKey path = extOf (lastSegment path) ∧
    ('.' ∉ lastSegment path → extKey path = lastSegment path) ∧
    (ctypes (extKey path) = none →
      contentTypeOf ctypes path = "text/plain".toList) := by
  refine ⟨extKey_eq_extOf_lastSegment path, ?_, ?_⟩
  · intro h
    rw [extKey_eq_extOf_lastSegment path]
    exact afterLast_no_sep '.' (lastSegment path) h
  · intro h
    unfold contentTypeOf
    rw [h]
    rfl

theorem c10_witness :
    extKey "file:///cwd/public/readme.txt".toList =
      extOf (lastSegment "file:///cwd/public/readme.txt".toList) ∧
    extKey "file:///cwd/public/makefile".toList =
      lastSegment "file:///cwd/public/makefile".toList ∧
    contentTypeOf (fun _ => none) "file:///cwd/public/readme.txt".toList =
      "text/plain".toList :=
  ⟨(c10_content_type_key (fun _ => none) "file:///cwd/public/readme.txt".toList).1,
   (c10_content_type_key (fun _ => none) "file:///cwd/public/makefile".toList).2.1
      (by decide),
   (c10_content_type_key (fun _ => none) "file:///cwd/public/readme.txt".toList).2.2
      rfl⟩

end MwServer
